import Mathlib

/-!
Verification of the DARTS search-space construction and discretization code in
examples/app/h_cv/NAS-pFed/darts/model_search.py.

The file shallowly embeds the data model and the algorithms of that source:
weight tables are lists of rows of rationals (the real code holds floats; all
the properties checked here are order/arithmetic properties that hold over any
linearly ordered field, so the rationals are an adequate carrier), tensors are
abstracted to an additive commutative monoid (operations and concatenation are
external collaborators), and the mutable parameter tensors of the network are
modelled by an explicit store (a list of tables) addressed by indices, so that
aliasing between networks is observable.

PRIMITIVES and OPS live in darts/genotypes.py and darts/operations.py, which
are external to the file under verification; they are modelled from the spec
(section 3 "PrimitiveSet" and section 6 "OperationRegistry").
-/

namespace DartsModelSearch

/-- Modelled from the spec: the PrimitiveSet of darts/genotypes.py, an ordered
sequence of named operation kinds with the "none" operation first, pooling and
skip variants next, and the convolutional kinds from index 4 on (section 3 and
section 4.4 item 5 of the spec). -/
def PRIMITIVES : List String :=
  ["none", "max_pool_3x3", "avg_pool_3x3", "skip_connect",
   "sep_conv_3x3", "sep_conv_5x5", "dil_conv_3x3", "dil_conv_5x5"]

/-- Embeds PRIMITIVES.index("none") from genotype._parse. -/
def noneIdx : ℕ := PRIMITIVES.indexOf "none"

theorem noneIdx_eq_zero : noneIdx = 0 := rfl

theorem PRIMITIVES_length : PRIMITIVES.length = 8 := rfl

/-- A 2D architecture-weight table: one row per cell edge, one column per
primitive. -/
abbrev Table := List (List ℚ)

/-- Start row of intermediate node i in a weight table.  In the source the
loops keep a running offset (or a running pair (start, n)) that begins at 0
and grows by n = j + 2 after node j; nodeStart i is the value of that
accumulator when node i is processed. -/
def nodeStart (i : ℕ) : ℕ := ((List.range i).map (fun j => j + 2)).sum

theorem nodeStart_succ (i : ℕ) : nodeStart (i + 1) = nodeStart i + (i + 2) := by
  unfold nodeStart
  rw [List.sum_range_succ]

theorem nodeStart_mono {i k : ℕ} (h : i ≤ k) : nodeStart i ≤ nodeStart k := by
  induction k with
  | zero =>
    have : i = 0 := by omega
    subst this
    exact le_rfl
  | succ k ih =>
    rcases Nat.lt_or_ge i (k + 1) with hlt | hge
    · have := ih (by omega)
      rw [nodeStart_succ]
      omega
    · have : i = k + 1 := by omega
      subst this
      exact le_rfl

/-- Embeds k = sum(1 for i in range(steps) for n in range(2 + i)) from
Network._initialize_alphas. -/
def alphasRowCount (steps : ℕ) : ℕ :=
  (((List.range steps).map (fun i => (List.range (2 + i)).map (fun _ => 1))).flatten).sum

theorem alphasRowCount_eq_nodeStart (steps : ℕ) : alphasRowCount steps = nodeStart steps := by
  induction steps with
  | zero => rfl
  | succ s ih =>
    unfold alphasRowCount at *
    rw [List.range_succ, List.map_append, List.flatten_append, List.sum_append, ih,
      nodeStart_succ]
    simp [List.map_const, List.sum_replicate]
    omega

theorem two_mul_nodeStart (steps : ℕ) : 2 * nodeStart steps = steps * (steps + 3) := by
  induction steps with
  | zero => rfl
  | succ s ih =>
    rw [nodeStart_succ]
    ring_nf
    ring_nf at ih
    omega

theorem nodeStart_closed_form (steps : ℕ) : nodeStart steps = steps * (steps + 3) / 2 := by
  have := two_mul_nodeStart steps
  omega

/-- Edge enumeration of a cell: node-major, then source-index-minor, exactly
the nested loop for i in range(steps): for j in range(2 + i) shared by
Cell.__init__ and InnerCell.__init__. -/
def cellEdges (steps : ℕ) : List (ℕ × ℕ) :=
  ((List.range steps).map (fun i => (List.range (2 + i)).map (fun j => (i, j)))).flatten

/-- Embeds stride = 2 if reduction and j < 2 else 1 from Cell.__init__ and
InnerCell.__init__. -/
def edgeStride (reduction : Bool) (j : ℕ) : ℕ :=
  if reduction ∧ j < 2 then 2 else 1

/-- The strides of the MixedOp operations a Cell instantiates, one per edge in
enumeration order (the op list self._ops of Cell.__init__, projected to the
stride each MixedOp was constructed with). -/
def cellOpStrides (reduction : Bool) (steps : ℕ) : List ℕ :=
  (cellEdges steps).map (fun e => edgeStride reduction e.2)

theorem cellEdges_succ (s : ℕ) :
    cellEdges (s + 1) = cellEdges s ++ (List.range (2 + s)).map (fun j => (s, j)) := by
  unfold cellEdges
  rw [List.range_succ, List.map_append, List.flatten_append]
  simp

theorem cellEdges_length (steps : ℕ) : (cellEdges steps).length = nodeStart steps := by
  induction steps with
  | zero => rfl
  | succ s ih =>
    rw [cellEdges_succ, List.length_append, ih, nodeStart_succ]
    simp
    omega

theorem cellEdges_getD {steps i j : ℕ} (hi : i < steps) (hj : j < 2 + i) :
    (cellEdges steps).getD (nodeStart i + j) (0, 0) = (i, j) := by
  induction steps with
  | zero => omega
  | succ s ih =>
    rw [cellEdges_succ]
    rcases Nat.lt_or_ge i s with hlt | hge
    · rw [List.getD_append]
      · exact ih hlt
      · rw [cellEdges_length]
        have h1 : nodeStart i + (i + 2) ≤ nodeStart s := by
          rw [← nodeStart_succ]; exact nodeStart_mono hlt
        omega
    · have his : i = s := by omega
      subst his
      rw [List.getD_append_right _ _ _ _
        (by rw [cellEdges_length]; exact Nat.le_add_right _ _)]
      rw [cellEdges_length, Nat.add_sub_cancel_left]
      have hj' : j < ((List.range (2 + i)).map (fun j => ((i, j) : ℕ × ℕ))).length := by
        simpa using hj
      rw [List.getD_eq_getElem _ _ hj', List.getElem_map]
      congr 1
      exact List.getElem_range _ _

theorem cellOpStrides_getD {steps i j : ℕ} (reduction : Bool)
    (hi : i < steps) (hj : j < 2 + i) :
    (cellOpStrides reduction steps).getD (nodeStart i + j) 0 = edgeStride reduction j := by
  unfold cellOpStrides
  have hlen : nodeStart i + j < (cellEdges steps).length := by
    rw [cellEdges_length]
    have h1 : nodeStart i + (i + 2) ≤ nodeStart steps := by
      rw [← nodeStart_succ]; exact nodeStart_mono hi
    omega
  have hlen' : nodeStart i + j < ((cellEdges steps).map (fun e => edgeStride reduction e.2)).length := by
    simpa using hlen
  rw [List.getD_eq_getElem _ _ hlen', List.getElem_map]
  have := cellEdges_getD hi hj
  rw [List.getD_eq_getElem _ _ hlen] at this
  rw [this]

/-- Claim C3: for every cell construction, the MixedOperation on an edge is
constructed with stride 2 if and only if the cell is a reduction cell and the
edge's source index is 0 or 1; every other edge of a reduction cell, and every
edge of a non-reduction cell, is constructed with stride 1. -/
theorem cell_stride_policy (reduction : Bool) (steps i j : ℕ)
    (hi : i < steps) (hj : j < 2 + i) :
    ((cellOpStrides reduction steps).getD (nodeStart i + j) 0 = 2 ↔
      (reduction = true ∧ (j = 0 ∨ j = 1))) ∧
    (¬(reduction = true ∧ (j = 0 ∨ j = 1)) →
      (cellOpStrides reduction steps).getD (nodeStart i + j) 0 = 1) := by
  rw [cellOpStrides_getD reduction hi hj]
  unfold edgeStride
  constructor
  · constructor
    · intro h
      by_contra hc
      rw [if_neg] at h
      · omega
      · intro ⟨h1, h2⟩
        exact hc ⟨h1, by omega⟩
    · intro ⟨h1, h2⟩
      rw [if_pos ⟨h1, by omega⟩]
  · intro hc
    rw [if_neg]
    intro ⟨h1, h2⟩
    exact hc ⟨h1, by omega⟩

theorem cell_stride_policy_witness :
    (0 < 1 ∧ 0 < 2 + 0) ∧
    (((cellOpStrides true 1).getD (nodeStart 0 + 0) 0 = 2 ↔
        (true = true ∧ (0 = 0 ∨ 0 = 1))) ∧
      (¬(true = true ∧ ((0 : ℕ) = 0 ∨ (0 : ℕ) = 1)) →
        (cellOpStrides true 1).getD (nodeStart 0 + 0) 0 = 1)) :=
  ⟨⟨by decide, by decide⟩, cell_stride_policy true 1 0 0 (by decide) (by decide)⟩

/-- A store of parameter tensors.  Each nn.Parameter table allocated by the
source is one entry; a network refers to its tables by index, so that sharing
(aliasing) between two networks is observable. -/
abbrev Store := List Table

/-- Read the table a reference points to. -/
def readTable (store : Store) (r : ℕ) : Table := store.getD r []

/-- Mirror of the Network module state: the structural hyperparameters stored
by Network.__init__ plus references to the two architecture-weight tables
allocated by _initialize_alphas.  criterion and device are external
collaborators and carry no verified structure. -/
structure NetworkState where
  C : ℕ
  num_classes : ℕ
  layers : ℕ
  steps : ℕ
  multiplier : ℕ
  stem_multiplier : ℕ
  alphas_normal : ℕ
  alphas_reduce : ℕ
deriving DecidableEq

/-- A table of shape rows × cols filled from an external value source; models
1e-3 * torch.randn(k, num_ops) with the sampled values supplied by vals. -/
def mkTable (rows cols : ℕ) (vals : ℕ → ℕ → ℚ) : Table :=
  (List.range rows).map (fun i => (List.range cols).map (fun j => vals i j))

/-- Embeds Network._initialize_alphas: a fresh (k, len(PRIMITIVES)) table with
k = alphasRowCount steps, for each of the two cell kinds. -/
def initAlphas (steps : ℕ) (vals : ℕ → ℕ → ℚ) : Table :=
  mkTable (alphasRowCount steps) PRIMITIVES.length vals

/-- Embeds Network.__init__ (the parts with verifiable state): records the
hyperparameters and allocates the two architecture-weight tables as fresh
store entries (two independent nn.Parameter allocations). -/
def networkInit (store : Store) (C num_classes layers steps multiplier stem_multiplier : ℕ)
    (valsN valsR : ℕ → ℕ → ℚ) : NetworkState × Store :=
  ({ C := C, num_classes := num_classes, layers := layers, steps := steps,
     multiplier := multiplier, stem_multiplier := stem_multiplier,
     alphas_normal := store.length, alphas_reduce := store.length + 1 },
   store ++ [initAlphas steps valsN, initAlphas steps valsR])

theorem readTable_networkInit_normal (store : Store)
    (C nc layers steps m sm : ℕ) (vN vR : ℕ → ℕ → ℚ) :
    readTable (networkInit store C nc layers steps m sm vN vR).2
        (networkInit store C nc layers steps m sm vN vR).1.alphas_normal
      = initAlphas steps vN := by
  unfold networkInit readTable
  rw [List.getD_append_right _ _ _ _ le_rfl]
  simp

theorem readTable_networkInit_reduce (store : Store)
    (C nc layers steps m sm : ℕ) (vN vR : ℕ → ℕ → ℚ) :
    readTable (networkInit store C nc layers steps m sm vN vR).2
        (networkInit store C nc layers steps m sm vN vR).1.alphas_reduce
      = initAlphas steps vR := by
  unfold networkInit readTable
  rw [List.getD_append_right _ _ _ _ (Nat.le_succ _)]
  simp

theorem initAlphas_length (steps : ℕ) (vals : ℕ → ℕ → ℚ) :
    (initAlphas steps vals).length = alphasRowCount steps := by
  unfold initAlphas mkTable
  simp

theorem initAlphas_row_length (steps : ℕ) (vals : ℕ → ℕ → ℚ) :
    ∀ r ∈ initAlphas steps vals, r.length = PRIMITIVES.length := by
  intro r hr
  unfold initAlphas mkTable at hr
  obtain ⟨i, _, rfl⟩ := List.mem_map.mp hr
  simp

/-- Claim C4: network construction creates exactly two independent
architecture-weight tables (normal and reduce), each with row count equal to
the sum over i in [0, steps) of (i+2), which equals steps*(steps+3)/2 (14 rows
when steps = 4), and column count equal to the number of primitives; this row
count also equals the number of MixedOperations instantiated per Cell. -/
theorem alphas_shape_spec (store : Store) (C nc layers steps m sm : ℕ)
    (vN vR : ℕ → ℕ → ℚ) (reduction : Bool) :
    (networkInit store C nc layers steps m sm vN vR).1.alphas_normal ≠
        (networkInit store C nc layers steps m sm vN vR).1.alphas_reduce ∧
    (readTable (networkInit store C nc layers steps m sm vN vR).2
        (networkInit store C nc layers steps m sm vN vR).1.alphas_normal).length
      = ((List.range steps).map (fun i => i + 2)).sum ∧
    (readTable (networkInit store C nc layers steps m sm vN vR).2
        (networkInit store C nc layers steps m sm vN vR).1.alphas_reduce).length
      = ((List.range steps).map (fun i => i + 2)).sum ∧
    (∀ r ∈ readTable (networkInit store C nc layers steps m sm vN vR).2
        (networkInit store C nc layers steps m sm vN vR).1.alphas_normal,
        r.length = PRIMITIVES.length) ∧
    (∀ r ∈ readTable (networkInit store C nc layers steps m sm vN vR).2
        (networkInit store C nc layers steps m sm vN vR).1.alphas_reduce,
        r.length = PRIMITIVES.length) ∧
    alphasRowCount steps = steps * (steps + 3) / 2 ∧
    alphasRowCount 4 = 14 ∧
    (cellOpStrides reduction steps).length = alphasRowCount steps ∧
    alphasRowCount steps = ((List.range steps).map (fun i => i + 2)).sum := by
  have hrc : alphasRowCount steps = ((List.range steps).map (fun i => i + 2)).sum := by
    rw [alphasRowCount_eq_nodeStart]; rfl
  refine ⟨by simp [networkInit], ?_, ?_, ?_, ?_, ?_, by decide, ?_, hrc⟩
  · rw [readTable_networkInit_normal, initAlphas_length, hrc]
  · rw [readTable_networkInit_reduce, initAlphas_length, hrc]
  · rw [readTable_networkInit_normal]; exact initAlphas_row_length steps vN
  · rw [readTable_networkInit_reduce]; exact initAlphas_row_length steps vR
  · rw [alphasRowCount_eq_nodeStart]; exact nodeStart_closed_form steps
  · unfold cellOpStrides
    rw [List.length_map, cellEdges_length, alphasRowCount_eq_nodeStart]

/-- The precondition of x.data.copy_(y.data): torch raises a RuntimeError
unless the source tensor is broadcastable to the destination's shape.  The
tables at hand always have exactly |PRIMITIVES| columns and a row count
Σ(i+2) that is never 1, so no size-1 broadcast dimension can arise and
broadcastability degenerates to shape equality: same row count and the same
column count in every row. -/
def copyOk (dst src : Table) : Prop :=
  src.length = dst.length ∧ src.map List.length = dst.map List.length

instance (dst src : Table) : Decidable (copyOk dst src) := by
  unfold copyOk
  exact inferInstance

/-- The clone state and store produced by Network.new after BOTH parameter
copies succeed: the fresh network from Network(self._C, self._num_classes,
self._layers, self._criterion, self.device) — steps, multiplier and
stem_multiplier are NOT passed, so the clone takes the constructor defaults
steps=4, multiplier=4, stem_multiplier=3 — with its two fresh
architecture-weight allocations overwritten by the source's current values
(x.data.copy_(y.data)).  valsN and valsR supply the randn values of the
fresh allocations (immediately overwritten by the copy). -/
def networkNewCopied (store : Store) (net : NetworkState) (valsN valsR : ℕ → ℕ → ℚ) :
    NetworkState × Store :=
  let p := networkInit store net.C net.num_classes net.layers 4 4 3 valsN valsR
  (p.1,
   (p.2.set p.1.alphas_normal (readTable store net.alphas_normal)).set
     p.1.alphas_reduce (readTable store net.alphas_reduce))

/-- Embeds Network.new (and the textually identical EMNIST.new, which also
constructs a Network).  The two x.data.copy_(y.data) calls succeed only when
each source table is broadcastable to the clone's freshly allocated
(alphasRowCount 4, |PRIMITIVES|) parameter — which is initAlphas 4 valsN
resp. initAlphas 4 valsR, see readTable_networkInit_normal/_reduce; otherwise
copy_ raises a RuntimeError and new() never returns, modelled as none. -/
def networkNew (store : Store) (net : NetworkState) (valsN valsR : ℕ → ℕ → ℚ) :
    Option (NetworkState × Store) :=
  if copyOk (initAlphas 4 valsN) (readTable store net.alphas_normal) ∧
      copyOk (initAlphas 4 valsR) (readTable store net.alphas_reduce)
  then some (networkNewCopied store net valsN valsR)
  else none

/-- Value source standing for a torch.randn draw in concrete instances. -/
def zeroVals : ℕ → ℕ → ℚ := fun _ _ => 0

/-- A concrete source network constructed with steps = 4 (so its tables have
the default 14-row shape and the parameter copy succeeds) but non-default
multiplier = 3 and stem_multiplier = 2. -/
def netSrcC7 : NetworkState × Store := networkInit [] 16 10 8 4 3 2 zeroVals zeroVals

/-- A concrete source network constructed with steps = 5: its tables have 20
rows, which cannot be copied into the clone's fresh 14-row parameters. -/
def netSrcC7steps : NetworkState × Store := networkInit [] 16 10 8 5 4 3 zeroVals zeroVals

/-- Claim C7 counterexample: new() omits steps, multiplier and
stem_multiplier from the Network(...) call.  For a source with steps = 4 but
multiplier = 3 and stem_multiplier = 2, new() returns a clone whose
multiplier is 4 and stem_multiplier is 3 — not the source's values, refuting
the claimed identity of structural hyperparameters.  For a source with
steps = 5 the 20x8 source tables are not broadcastable into the clone's
fresh 14x8 parameters, so x.data.copy_ raises and new() never returns a
network at all. -/
theorem network_new_counterexample :
    (networkNew netSrcC7.2 netSrcC7.1 zeroVals zeroVals).map (fun p => p.1.multiplier)
      = some 4 ∧
    netSrcC7.1.multiplier = 3 ∧
    (networkNew netSrcC7.2 netSrcC7.1 zeroVals zeroVals).map (fun p => p.1.stem_multiplier)
      = some 3 ∧
    netSrcC7.1.stem_multiplier = 2 ∧
    networkNew netSrcC7steps.2 netSrcC7steps.1 zeroVals zeroVals = none := by
  decide

/-- What Network.new actually guarantees when the source tables fit the
clone's fresh default-steps allocations, stated as one property of the
clone's state and store. -/
def networkNewProp (store : Store) (net : NetworkState) (valsN valsR : ℕ → ℕ → ℚ) : Prop :=
  ∃ m store2, networkNew store net valsN valsR = some (m, store2) ∧
    m.C = net.C ∧
    m.num_classes = net.num_classes ∧
    m.layers = net.layers ∧
    m.steps = 4 ∧
    m.multiplier = 4 ∧
    m.stem_multiplier = 3 ∧
    readTable store2 m.alphas_normal = readTable store net.alphas_normal ∧
    readTable store2 m.alphas_reduce = readTable store net.alphas_reduce ∧
    m.alphas_normal ≠ net.alphas_normal ∧
    m.alphas_reduce ≠ net.alphas_reduce ∧
    readTable store2 net.alphas_normal = readTable store net.alphas_normal ∧
    readTable store2 net.alphas_reduce = readTable store net.alphas_reduce ∧
    (∀ t : Table,
      readTable (store2.set m.alphas_normal t) net.alphas_normal
        = readTable store2 net.alphas_normal) ∧
    (∀ t : Table,
      readTable (store2.set m.alphas_reduce t) net.alphas_reduce
        = readTable store2 net.alphas_reduce) ∧
    (∀ t : Table,
      readTable (store2.set net.alphas_normal t) m.alphas_normal
        = readTable store2 m.alphas_normal) ∧
    (∀ t : Table,
      readTable (store2.set net.alphas_reduce t) m.alphas_reduce
        = readTable store2 m.alphas_reduce)

theorem readTable_set_ne (store : Store) (r r' : ℕ) (t : Table) (h : r ≠ r') :
    readTable (store.set r t) r' = readTable store r' := by
  unfold readTable
  rcases Nat.lt_or_ge r' store.length with hlt | hge
  · have hlt' : r' < (store.set r t).length := by simpa using hlt
    rw [List.getD_eq_getElem _ _ hlt', List.getD_eq_getElem _ _ hlt, List.getElem_set,
      if_neg h]
  · rw [List.getD_eq_getElem?_getD, List.getD_eq_getElem?_getD,
      List.getElem?_eq_none (by simpa using hge), List.getElem?_eq_none hge]

theorem readTable_set_self (store : Store) (r : ℕ) (t : Table) (h : r < store.length) :
    readTable (store.set r t) r = t := by
  unfold readTable
  have h' : r < (store.set r t).length := by simpa using h
  rw [List.getD_eq_getElem _ _ h', List.getElem_set, if_pos rfl]

theorem readTable_append_left (store : Store) (l : Store) (r : ℕ) (h : r < store.length) :
    readTable (store ++ l) r = readTable store r := by
  unfold readTable
  exact List.getD_append _ _ _ _ h

theorem map_length_eq_replicate (t : Table) (c : ℕ) (h2 : ∀ r ∈ t, r.length = c) :
    t.map List.length = List.replicate t.length c := by
  induction t with
  | nil => rfl
  | cons a t ih =>
    rw [List.map_cons, List.length_cons, List.replicate_succ,
      h2 a (List.mem_cons_self _ _),
      ih (fun r hr => h2 r (List.mem_cons_of_mem _ hr))]

/-- Claim C7 amended: when the source's two weight tables have the shape of
the clone's fresh default-steps allocations (always the case for a source
built with the default steps = 4), Network.new returns a fresh network that
keeps the source's C, num_classes and layers but resets steps, multiplier
and stem_multiplier to the constructor defaults 4, 4, 3; the clone's two
architecture-weight tables are freshly allocated (not shared with the
source) and hold copies of the source's current values, so mutating either
network's tables leaves the other's unchanged.  (When the shapes differ —
e.g. a steps = 5 source with 20-row tables — x.data.copy_ raises instead and
new() returns nothing, see the counterexample.) -/
theorem network_new_spec (store : Store) (net : NetworkState) (valsN valsR : ℕ → ℕ → ℚ)
    (hN : net.alphas_normal < store.length) (hR : net.alphas_reduce < store.length)
    (hsN : (readTable store net.alphas_normal).length = alphasRowCount 4 ∧
      ∀ r ∈ readTable store net.alphas_normal, r.length = PRIMITIVES.length)
    (hsR : (readTable store net.alphas_reduce).length = alphasRowCount 4 ∧
      ∀ r ∈ readTable store net.alphas_reduce, r.length = PRIMITIVES.length) :
    networkNewProp store net valsN valsR := by
  have hcopyN : copyOk (initAlphas 4 valsN) (readTable store net.alphas_normal) := by
    constructor
    · rw [hsN.1, initAlphas_length]
    · rw [map_length_eq_replicate _ PRIMITIVES.length hsN.2,
        map_length_eq_replicate _ PRIMITIVES.length (initAlphas_row_length 4 valsN),
        hsN.1, initAlphas_length]
  have hcopyR : copyOk (initAlphas 4 valsR) (readTable store net.alphas_reduce) := by
    constructor
    · rw [hsR.1, initAlphas_length]
    · rw [map_length_eq_replicate _ PRIMITIVES.length hsR.2,
        map_length_eq_replicate _ PRIMITIVES.length (initAlphas_row_length 4 valsR),
        hsR.1, initAlphas_length]
  have hsome : networkNew store net valsN valsR
      = some (networkNewCopied store net valsN valsR) := by
    unfold networkNew
    rw [if_pos ⟨hcopyN, hcopyR⟩]
  have hfreshN : (networkNewCopied store net valsN valsR).1.alphas_normal
      = store.length := rfl
  have hfreshR : (networkNewCopied store net valsN valsR).1.alphas_reduce
      = store.length + 1 := rfl
  have hstore : (networkNewCopied store net valsN valsR).2 =
      ((store ++ [initAlphas 4 valsN, initAlphas 4 valsR]).set store.length
          (readTable store net.alphas_normal)).set (store.length + 1)
          (readTable store net.alphas_reduce) := rfl
  refine ⟨(networkNewCopied store net valsN valsR).1,
    (networkNewCopied store net valsN valsR).2,
    by rw [hsome], rfl, rfl, rfl, rfl, rfl, rfl,
    ?_, ?_, ?_, ?_, ?_, ?_, ?_, ?_, ?_, ?_⟩
  · rw [hstore, hfreshN, readTable_set_ne _ _ _ _ (by omega),
      readTable_set_self _ _ _ (by simp)]
  · rw [hstore, hfreshR, readTable_set_self _ _ _ (by simp)]
  · rw [hfreshN]; omega
  · rw [hfreshR]; omega
  · rw [hstore, readTable_set_ne _ _ _ _ (by omega), readTable_set_ne _ _ _ _ (by omega),
      readTable_append_left _ _ _ hN]
  · rw [hstore, readTable_set_ne _ _ _ _ (by omega), readTable_set_ne _ _ _ _ (by omega),
      readTable_append_left _ _ _ hR]
  · intro t
    rw [hfreshN, readTable_set_ne _ _ _ _ (by omega)]
  · intro t
    rw [hfreshR, readTable_set_ne _ _ _ _ (by omega)]
  · intro t
    rw [hfreshN, readTable_set_ne _ _ _ _ (by omega)]
  · intro t
    rw [hfreshR, readTable_set_ne _ _ _ _ (by omega)]

/-- A concrete source network built with the default hyperparameters, whose
tables fit the clone's fresh allocations. -/
def netSrcW7 : NetworkState × Store := networkInit [] 16 10 8 4 4 3 zeroVals zeroVals

theorem network_new_spec_witness :
    (netSrcW7.1.alphas_normal < netSrcW7.2.length ∧
      netSrcW7.1.alphas_reduce < netSrcW7.2.length ∧
      ((readTable netSrcW7.2 netSrcW7.1.alphas_normal).length = alphasRowCount 4 ∧
        ∀ r ∈ readTable netSrcW7.2 netSrcW7.1.alphas_normal,
          r.length = PRIMITIVES.length) ∧
      ((readTable netSrcW7.2 netSrcW7.1.alphas_reduce).length = alphasRowCount 4 ∧
        ∀ r ∈ readTable netSrcW7.2 netSrcW7.1.alphas_reduce,
          r.length = PRIMITIVES.length)) ∧
    networkNewProp netSrcW7.2 netSrcW7.1 zeroVals zeroVals :=
  ⟨⟨by decide, by decide, by decide, by decide⟩,
    network_new_spec netSrcW7.2 netSrcW7.1 zeroVals zeroVals
      (by decide) (by decide) (by decide) (by decide)⟩

/-- Embeds MixedOp.forward: sum(w * op(x) for w, op in zip(weights, self._ops)).
The tensor type T is abstract (an additive commutative monoid with rational
scalar action); each candidate operation is a function T → T constructed once
at MixedOp.__init__ (the OPS constructors, batch-norm wrapping included, are
external collaborators). -/
def mixedOpForward {T : Type} [AddCommMonoid T] [SMul ℚ T]
    (ops : List (T → T)) (weights : List ℚ) (x : T) : T :=
  ((weights.zip ops).map (fun p => p.1 • p.2 x)).sum

/-- A weight vector of length n concentrated at index k. -/
def oneHot (n k : ℕ) : List ℚ :=
  (List.range n).map (fun j => if j = k then 1 else 0)

theorem mixedOpForward_eq_sum {T : Type} [AddCommMonoid T] [Module ℚ T]
    (ops : List (T → T)) (weights : List ℚ) (x : T)
    (h : weights.length = ops.length) :
    mixedOpForward ops weights x
      = ∑ k ∈ Finset.range ops.length, weights.getD k 0 • (ops.getD k id) x := by
  induction ops generalizing weights with
  | nil =>
    have : weights = [] := List.eq_nil_of_length_eq_zero h
    subst this
    simp [mixedOpForward]
  | cons o ops ih =>
    match weights, h with
    | w :: ws, h =>
      have hlen : ws.length = ops.length := by simpa using h
      have : mixedOpForward (o :: ops) (w :: ws) x = w • o x + mixedOpForward ops ws x := by
        simp [mixedOpForward]
      rw [this, ih ws hlen]
      simp only [List.length_cons]
      rw [Finset.sum_range_succ' _ ops.length]
      simp [add_comm]

/-- The conclusion of claim C6 at given operations, weights, input and index:
the forward result is the weighted sum over all candidate operations, and a
one-hot weight vector concentrated at index k yields exactly operation k's
output. -/
def mixedOpForwardProp {T : Type} [AddCommMonoid T] [Module ℚ T]
    (ops : List (T → T)) (weights : List ℚ) (x : T) (k : ℕ) : Prop :=
  mixedOpForward ops weights x
    = ∑ j ∈ Finset.range ops.length, weights.getD j 0 • (ops.getD j id) x ∧
  mixedOpForward ops (oneHot ops.length k) x = (ops.getD k id) x

/-- Claim C6: for every input and every weight vector of matching length,
MixedOperation.forward returns the weighted sum over all candidate operations
(sum over k of weight[k] * operation_k(x), no branch dropped); in particular a
one-hot weight vector concentrated at index k yields operation_k(x). -/
theorem mixedOp_forward_spec {T : Type} [AddCommMonoid T] [Module ℚ T]
    (ops : List (T → T)) (weights : List ℚ) (x : T) (k : ℕ)
    (h : weights.length = ops.length) (hk : k < ops.length) :
    mixedOpForwardProp ops weights x k := by
  constructor
  · exact mixedOpForward_eq_sum ops weights x h
  · rw [mixedOpForward_eq_sum ops (oneHot ops.length k) x (by simp [oneHot])]
    rw [Finset.sum_eq_single k]
    · have hget : (oneHot ops.length k).getD k 0 = 1 := by
        unfold oneHot
        have hk' : k < ((List.range ops.length).map
            (fun j => if j = k then (1 : ℚ) else 0)).length := by simpa using hk
        rw [List.getD_eq_getElem _ _ hk', List.getElem_map]
        simp
      rw [hget, one_smul]
    · intro b hb hbk
      have hb' : b < ops.length := Finset.mem_range.mp hb
      have hget : (oneHot ops.length k).getD b 0 = 0 := by
        unfold oneHot
        have hb'' : b < ((List.range ops.length).map
            (fun j => if j = k then (1 : ℚ) else 0)).length := by simpa using hb'
        rw [List.getD_eq_getElem _ _ hb'', List.getElem_map]
        simp [hbk]
      rw [hget, zero_smul]
    · intro hk'
      exact absurd (Finset.mem_range.mpr hk) hk'

/-- Two concrete candidate operations on rational scalars. -/
def opsC6 : List (ℚ → ℚ) := [fun a => a + 1, fun a => 2 * a]

theorem mixedOp_forward_spec_witness :
    (([(1 : ℚ) / 2, 1 / 2] : List ℚ).length = opsC6.length ∧ 1 < opsC6.length) ∧
    mixedOpForwardProp opsC6 [(1 : ℚ) / 2, 1 / 2] 3 1 :=
  ⟨⟨by decide, by decide⟩,
    mixedOp_forward_spec opsC6 [(1 : ℚ) / 2, 1 / 2] 3 1 (by decide) (by decide)⟩

/-- Embeds the edge-strength expression of Network.genotype._parse:
max(W[x][k] for k in range(len(W[x])) if k != PRIMITIVES.index("none")). -/
def maxExclNone (row : List ℚ) : ℚ :=
  ((((List.range row.length).filter (fun k => k != noneIdx))).map
    (fun k => row.getD k 0)).maximum.unbot' 0

theorem maxExclNone_spec (row : List ℚ) (h2 : 2 ≤ row.length) :
    (∃ k, k < row.length ∧ k ≠ noneIdx ∧ row.getD k 0 = maxExclNone row) ∧
    (∀ k, k < row.length → k ≠ noneIdx → row.getD k 0 ≤ maxExclNone row) := by
  set l := (((List.range row.length).filter (fun k => k != noneIdx))).map
    (fun k => row.getD k 0) with hl
  have hmem : ∀ k, k < row.length → k ≠ noneIdx → row.getD k 0 ∈ l := by
    intro k hk hkn
    rw [hl]
    exact List.mem_map.mpr ⟨k, List.mem_filter.mpr
      ⟨List.mem_range.mpr hk, by simpa using hkn⟩, rfl⟩
  have hne : l ≠ [] := by
    intro hnil
    have h1 : row.getD 1 0 ∈ l := hmem 1 (by omega) (by rw [noneIdx_eq_zero]; omega)
    rw [hnil] at h1
    exact absurd h1 (List.not_mem_nil _)
  obtain ⟨m, hm⟩ : ∃ m : ℚ, l.maximum = (m : WithBot ℚ) := by
    cases hmax : l.maximum with
    | bot => exact absurd (List.maximum_eq_none.mp hmax) hne
    | coe m => exact ⟨m, rfl⟩
  have hmval : maxExclNone row = m := by
    unfold maxExclNone
    rw [← hl, hm]
    rfl
  constructor
  · have hmm : m ∈ l := List.maximum_mem hm
    obtain ⟨k, hkf, hkv⟩ := List.mem_map.mp hmm
    obtain ⟨hkr, hkn⟩ := List.mem_filter.mp hkf
    exact ⟨k, List.mem_range.mp hkr, by simpa using hkn, by rw [hmval, hkv]⟩
  · intro k hk hkn
    rw [hmval]
    exact List.le_maximum_of_mem (hmem k hk hkn) hm

/-- One iteration of the k_best scan of Network.genotype._parse:
if k != PRIMITIVES.index("none"): if k_best is None or W[j][k] > W[j][k_best]:
k_best = k. -/
def kBestStep (row : List ℚ) (kb : Option ℕ) (k : ℕ) : Option ℕ :=
  if k ≠ noneIdx then
    match kb with
    | none => some k
    | some b => if row.getD b 0 < row.getD k 0 then some k else some b
  else kb

/-- The k_best produced by the scan over range(len(W[j])). -/
def kBest (row : List ℚ) : Option ℕ :=
  (List.range row.length).foldl (kBestStep row) none

theorem kBest_aux (row : List ℚ) (m : ℕ) :
    ((List.range m).foldl (kBestStep row) none = none → ∀ k, k < m → k = noneIdx) ∧
    (∀ b, (List.range m).foldl (kBestStep row) none = some b →
      b < m ∧ b ≠ noneIdx ∧ ∀ k, k < m → k ≠ noneIdx → row.getD k 0 ≤ row.getD b 0) := by
  induction m with
  | zero => simp
  | succ m ih =>
    rw [List.range_succ, List.foldl_append]
    simp only [List.foldl_cons, List.foldl_nil]
    by_cases hm : m = noneIdx
    · have hstep : ∀ kb, kBestStep row kb m = kb := by
        intro kb
        unfold kBestStep
        rw [if_neg (by simpa using hm)]
      rw [hstep]
      constructor
      · intro hnone k hk
        rcases Nat.lt_or_ge k m with hlt | hge
        · exact ih.1 hnone k hlt
        · have : k = m := by omega
          rw [this, hm]
      · intro b hb
        obtain ⟨h1, h2, h3⟩ := ih.2 b hb
        refine ⟨by omega, h2, ?_⟩
        intro k hk hkn
        rcases Nat.lt_or_ge k m with hlt | hge
        · exact h3 k hlt hkn
        · have : k = m := by omega
          rw [this] at hkn
          exact absurd hm hkn
    · cases hacc : (List.range m).foldl (kBestStep row) none with
      | none =>
        have hstep : kBestStep row none m = some m := by
          unfold kBestStep
          rw [if_pos hm]
        rw [hstep]
        constructor
        · intro h
          exact absurd h (by simp)
        · intro b hb
          have hbm : b = m := by
            have := hb
            simp at this
            omega
          refine ⟨by omega, by rw [hbm]; exact hm, ?_⟩
          intro k hk hkn
          rw [hbm]
          rcases Nat.lt_or_ge k m with hlt | hge
          · exact absurd (ih.1 hacc k hlt) hkn
          · have hkm : k = m := by omega
            rw [hkm]
      | some b0 =>
        obtain ⟨h1, h2, h3⟩ := ih.2 b0 hacc
        have hstep : kBestStep row (some b0) m =
            if row.getD b0 0 < row.getD m 0 then some m else some b0 := by
          unfold kBestStep
          rw [if_pos hm]
        rw [hstep]
        by_cases hcmp : row.getD b0 0 < row.getD m 0
        · rw [if_pos hcmp]
          constructor
          · intro h
            exact absurd h (by simp)
          · intro b hb
            have hbm : b = m := by
              have := hb
              simp at this
              omega
            refine ⟨by omega, by rw [hbm]; exact hm, ?_⟩
            intro k hk hkn
            rw [hbm]
            rcases Nat.lt_or_ge k m with hlt | hge
            · exact le_of_lt (lt_of_le_of_lt (h3 k hlt hkn) hcmp)
            · have hkm : k = m := by omega
              rw [hkm]
        · rw [if_neg hcmp]
          constructor
          · intro h
            exact absurd h (by simp)
          · intro b hb
            have hbb : b = b0 := by
              have := hb
              simp at this
              omega
            refine ⟨by omega, by rw [hbb]; exact h2, ?_⟩
            intro k hk hkn
            rw [hbb]
            rcases Nat.lt_or_ge k m with hlt | hge
            · exact h3 k hlt hkn
            · have hkm : k = m := by omega
              rw [hkm]
              exact le_of_not_lt hcmp

/-- The argmax-excluding-"none" property of an operation index within a row. -/
def kArgmaxExclNone (row : List ℚ) (k : ℕ) : Prop :=
  k < row.length ∧ k ≠ noneIdx ∧
    ∀ k', k' < row.length → k' ≠ noneIdx → row.getD k' 0 ≤ row.getD k 0

theorem kBest_spec (row : List ℚ) (h2 : 2 ≤ row.length) :
    ∃ b, kBest row = some b ∧ kArgmaxExclNone row b := by
  have haux := kBest_aux row row.length
  cases hkb : kBest row with
  | none =>
    have h1 := haux.1 hkb 1 (by omega)
    rw [noneIdx_eq_zero] at h1
    omega
  | some b =>
    obtain ⟨hb1, hb2, hb3⟩ := haux.2 b hkb
    exact ⟨b, rfl, hb1, hb2, hb3⟩

/-- How the stable sort of Network.genotype._parse ranks two candidate source
edges: a comes no later than b when a's strength is strictly larger, or the
strengths tie and a's source index is not larger (Python's sorted is stable
and the input list range(i+2) is in increasing index order, so stability is
exactly this tie rule). -/
def edgeBefore (W : Table) (a b : ℕ) : Prop :=
  maxExclNone (W.getD b []) < maxExclNone (W.getD a []) ∨
    (maxExclNone (W.getD a []) = maxExclNone (W.getD b []) ∧ a ≤ b)

instance (W : Table) : DecidableRel (edgeBefore W) := fun a b => by
  unfold edgeBefore
  exact inferInstance

instance (W : Table) : IsTotal ℕ (edgeBefore W) := by
  constructor
  intro a b
  rcases lt_trichotomy (maxExclNone (W.getD a [])) (maxExclNone (W.getD b [])) with h | h | h
  · exact Or.inr (Or.inl h)
  · rcases le_total a b with hab | hba
    · exact Or.inl (Or.inr ⟨h, hab⟩)
    · exact Or.inr (Or.inr ⟨h.symm, hba⟩)
  · exact Or.inl (Or.inl h)

instance (W : Table) : IsTrans ℕ (edgeBefore W) := by
  constructor
  intro a b c hab hbc
  rcases hab with h1 | ⟨h1, h1'⟩
  · rcases hbc with h2 | ⟨h2, h2'⟩
    · exact Or.inl (lt_trans h2 h1)
    · exact Or.inl (h2 ▸ h1)
  · rcases hbc with h2 | ⟨h2, h2'⟩
    · exact Or.inl (h1 ▸ h2)
    · exact Or.inr ⟨h1.trans h2, le_trans h1' h2'⟩

theorem edgeBefore_antisymm {W : Table} {a b : ℕ}
    (hab : edgeBefore W a b) (hba : edgeBefore W b a) : a = b := by
  rcases hab with h1 | ⟨h1, h1'⟩ <;> rcases hba with h2 | ⟨h2, h2'⟩
  · exact absurd (lt_trans h1 h2) (lt_irrefl _)
  · exact absurd h1 (by rw [h2]; exact lt_irrefl _)
  · exact absurd h2 (by rw [h1]; exact lt_irrefl _)
  · omega

/-- Strictly-ranked-before: higher strength, or equal strength and strictly
smaller original source index. -/
def beats (W : Table) (a b : ℕ) : Prop :=
  maxExclNone (W.getD b []) < maxExclNone (W.getD a []) ∨
    (maxExclNone (W.getD a []) = maxExclNone (W.getD b []) ∧ a < b)

theorem edgeBefore_beats {W : Table} {a b : ℕ}
    (h : edgeBefore W a b) (hne : a ≠ b) : beats W a b := by
  rcases h with h1 | ⟨h1, h1'⟩
  · exact Or.inl h1
  · exact Or.inr ⟨h1, lt_of_le_of_ne h1' hne⟩

/-- Embeds one node group of Network.genotype._parse: W = weights[start:end]
with end = start + n and n = i + 2; edges = sorted(range(i + 2), key =
lambda x: -strength(x))[:2] (Python's stable sort by descending strength on
the increasing index list equals sorting by the linear order edgeBefore, so
any correct sorting algorithm produces the same list); then for each kept
edge j the pair (PRIMITIVES[k_best], j) is appended. -/
def parseStep (weights : Table) (i start : ℕ) : List (String × ℕ) :=
  (((List.range (i + 2)).insertionSort
      (edgeBefore ((weights.drop start).take (i + 2)))).take 2).map
    (fun j =>
      (PRIMITIVES.getD ((kBest (((weights.drop start).take (i + 2)).getD j [])).getD 0) "",
       j))

/-- Embeds the whole gene list produced by Network.genotype._parse: the loop
over nodes i in range(steps) with the running start offset, appending the two
pairs of each node in order. -/
def parseGene (steps : ℕ) (weights : Table) : List (String × ℕ) :=
  ((List.range steps).map (fun i => parseStep weights i (nodeStart i))).flatten

theorem parseStep_length (weights : Table) (i start : ℕ) :
    (parseStep weights i start).length = 2 := by
  unfold parseStep
  rw [List.length_map, List.length_take, List.length_insertionSort, List.length_range]
  omega

theorem parseGene_length (steps : ℕ) (weights : Table) :
    (parseGene steps weights).length = 2 * steps := by
  unfold parseGene
  rw [List.length_flatten, List.map_map]
  have h : (List.length ∘ fun i => parseStep weights i (nodeStart i)) = fun _ => 2 :=
    funext fun i => parseStep_length weights i (nodeStart i)
  rw [h]
  induction steps with
  | zero => rfl
  | succ s ih =>
    rw [List.range_succ, List.map_append, List.sum_append, ih]
    simp
    omega

/-- Mirror of the Genotype record of darts/genotypes.py as populated by
Network.genotype. -/
structure Genotype where
  normal : List (String × ℕ)
  normal_concat : List ℤ
  reduce : List (String × ℕ)
  reduce_concat : List ℤ

/-- Embeds Python's range(a, b) over signed integers. -/
def intRange (a b : ℤ) : List ℤ :=
  (List.range (b - a).toNat).map (fun k : ℕ => a + (k : ℤ))

theorem mem_intRange (a b x : ℤ) : x ∈ intRange a b ↔ a ≤ x ∧ x < b := by
  unfold intRange
  constructor
  · intro hx
    obtain ⟨k, hk, rfl⟩ := List.mem_map.mp hx
    rw [List.mem_range] at hk
    omega
  · intro ⟨h1, h2⟩
    refine List.mem_map.mpr ⟨(x - a).toNat, List.mem_range.mpr (by omega), by omega⟩

/-- Embeds the Genotype assembly of Network.genotype: the two genes come from
_parse applied to the softmax-normalized weight tables (softmax is computed by
the external tensor engine; wN and wR stand for the two normalized tables),
and concat = range(2 + self._steps - self._multiplier, self._steps + 2) is
built once and used for both the normal_concat and the reduce_concat field. -/
def networkGenotype (steps multiplier : ℕ) (wN wR : Table) : Genotype :=
  { normal := parseGene steps wN,
    normal_concat := intRange (2 + (steps : ℤ) - multiplier) ((steps : ℤ) + 2),
    reduce := parseGene steps wR,
    reduce_concat := intRange (2 + (steps : ℤ) - multiplier) ((steps : ℤ) + 2) }

/-- Claim C5: the Genotype returned by genotype extraction carries a concat
index range equal to the integer interval [2 + steps - multiplier, steps + 2),
the last multiplier intermediate-node indices offset by 2 for the two inputs,
and this range is the same value for the normal and the reduce cell kinds. -/
theorem genotype_concat_spec (steps multiplier : ℕ) (wN wR : Table) :
    (networkGenotype steps multiplier wN wR).normal_concat
      = (networkGenotype steps multiplier wN wR).reduce_concat ∧
    (∀ x : ℤ, x ∈ (networkGenotype steps multiplier wN wR).normal_concat ↔
      (2 + (steps : ℤ) - multiplier ≤ x ∧ x < (steps : ℤ) + 2)) ∧
    (∀ x : ℤ, x ∈ (networkGenotype steps multiplier wN wR).reduce_concat ↔
      (2 + (steps : ℤ) - multiplier ≤ x ∧ x < (steps : ℤ) + 2)) := by
  refine ⟨rfl, ?_, ?_⟩ <;>
    exact fun x => mem_intRange (2 + (steps : ℤ) - multiplier) ((steps : ℤ) + 2) x

theorem slice_getD (weights : Table) (start n j : ℕ) (hj : j < n)
    (hlen : start + n ≤ weights.length) :
    ((weights.drop start).take n).getD j [] = weights.getD (start + j) [] := by
  have h1 : j < ((weights.drop start).take n).length := by
    rw [List.length_take, List.length_drop]
    exact lt_min hj (by omega)
  have h2 : start + j < weights.length := by
    omega
  rw [List.getD_eq_getElem _ _ h1, List.getD_eq_getElem _ _ h2]
  rw [List.getElem_take, List.getElem_drop]

/-- The maxExclNone value really is the strength the claim describes: it is
attained at some non-"none" index and bounds every non-"none" entry. -/
def strengthSpec (row : List ℚ) : Prop :=
  (∃ k, k < row.length ∧ k ≠ noneIdx ∧ row.getD k 0 = maxExclNone row) ∧
  (∀ k, k < row.length → k ≠ noneIdx → row.getD k 0 ≤ maxExclNone row)

/-- The conclusion of claim C1 for a weight table: the gene has exactly two
pairs per intermediate node; for node i the recorded pairs are
(PRIMITIVES[k1], e1) and (PRIMITIVES[k2], e2) where e1 and e2 are the two
source edges of highest strength (strength = max weight excluding "none",
ties broken toward the earlier source index) and k1, k2 are argmaxes of the
respective edge rows over all operations excluding "none". -/
def parseGeneProp (steps : ℕ) (weights : Table) : Prop :=
  (parseGene steps weights).length = 2 * steps ∧
  ∀ i, i < steps →
    ∃ e1 e2 k1 k2,
      e1 < i + 2 ∧ e2 < i + 2 ∧ e1 ≠ e2 ∧
      parseStep weights i (nodeStart i) =
        [(PRIMITIVES.getD k1 "", e1), (PRIMITIVES.getD k2 "", e2)] ∧
      beats ((weights.drop (nodeStart i)).take (i + 2)) e1 e2 ∧
      (∀ j, j < i + 2 → j ≠ e1 → j ≠ e2 →
        beats ((weights.drop (nodeStart i)).take (i + 2)) e1 j ∧
        beats ((weights.drop (nodeStart i)).take (i + 2)) e2 j) ∧
      kArgmaxExclNone (weights.getD (nodeStart i + e1) []) k1 ∧
      kArgmaxExclNone (weights.getD (nodeStart i + e2) []) k2 ∧
      (∀ j, j < i + 2 →
        ((weights.drop (nodeStart i)).take (i + 2)).getD j [] =
          weights.getD (nodeStart i + j) [] ∧
        strengthSpec (weights.getD (nodeStart i + j) []))

/-- Claim C1: for every steps >= 1 and every weight table with the required
row shape, genotype extraction produces, for each intermediate node i,
exactly 2 (operation_name, source_node_index) pairs: the two source edges of
that node with the highest strength (strength = max weight over all
operations excluding "none", ties broken by keeping the earlier source index
in original order), and for each kept edge the recorded operation is the
argmax of that edge's weights over all operations excluding "none". -/
theorem genotype_parse_spec (steps : ℕ) (weights : Table)
    (hsteps : 1 ≤ steps)
    (hrows : weights.length = alphasRowCount steps)
    (hrow : ∀ r ∈ weights, r.length = PRIMITIVES.length) :
    parseGeneProp steps weights := by
  constructor
  · exact parseGene_length steps weights
  · intro i hi
    set start := nodeStart i with hstart
    set W := (weights.drop start).take (i + 2) with hWdef
    have hbound : start + (i + 2) ≤ weights.length := by
      rw [hrows, alphasRowCount_eq_nodeStart, hstart, ← nodeStart_succ]
      exact nodeStart_mono hi
    have hsl : ∀ j, j < i + 2 → W.getD j [] = weights.getD (start + j) [] := by
      intro j hj
      rw [hWdef]
      exact slice_getD weights start (i + 2) j hj hbound
    have hrowlen : ∀ j, j < i + 2 → (weights.getD (start + j) []).length = 8 := by
      intro j hj
      have hlt : start + j < weights.length := by omega
      rw [List.getD_eq_getElem _ _ hlt]
      exact (hrow _ (List.getElem_mem hlt)).trans PRIMITIVES_length
    have h2len : ∀ j, j < i + 2 → 2 ≤ (weights.getD (start + j) []).length := by
      intro j hj
      rw [hrowlen j hj]
      omega
    set out := (List.range (i + 2)).insertionSort (edgeBefore W) with hout
    have hperm : out.Perm (List.range (i + 2)) := List.perm_insertionSort _ _
    have hsorted : List.Sorted (edgeBefore W) out := List.sorted_insertionSort _ _
    have hlen : out.length = i + 2 := by
      rw [hout, List.length_insertionSort, List.length_range]
    obtain ⟨e1, t1, hcons1⟩ := List.exists_cons_of_ne_nil (l := out)
      (by intro h; rw [h] at hlen; simp at hlen)
    obtain ⟨e2, rest, hcons2⟩ := List.exists_cons_of_ne_nil (l := t1)
      (by intro h; rw [hcons1, h] at hlen; simp at hlen)
    have houtc : out = e1 :: e2 :: rest := by rw [hcons1, hcons2]
    have hnodup : out.Nodup := hperm.nodup_iff.mpr (List.nodup_range _)
    have hmem : ∀ j, j < i + 2 → j ∈ out := fun j hj =>
      hperm.mem_iff.mpr (List.mem_range.mpr hj)
    have hmem' : ∀ j, j ∈ out → j < i + 2 := fun j hj =>
      List.mem_range.mp (hperm.mem_iff.mp hj)
    have he1lt : e1 < i + 2 := hmem' e1 (by rw [houtc]; exact List.mem_cons_self _ _)
    have he2lt : e2 < i + 2 :=
      hmem' e2 (by rw [houtc]; exact List.mem_cons_of_mem _ (List.mem_cons_self _ _))
    have hne12 : e1 ≠ e2 := by
      rw [houtc] at hnodup
      obtain ⟨hn1, _⟩ := List.nodup_cons.mp hnodup
      intro heq
      exact hn1 (heq ▸ List.mem_cons_self _ _)
    have hsort1 : ∀ b ∈ e2 :: rest, edgeBefore W e1 b := by
      rw [houtc] at hsorted
      exact List.rel_of_sorted_cons hsorted
    have hsorted2 : List.Sorted (edgeBefore W) (e2 :: rest) := by
      rw [houtc] at hsorted
      exact (List.sorted_cons.mp hsorted).2
    have hsort2 : ∀ b ∈ rest, edgeBefore W e2 b := List.rel_of_sorted_cons hsorted2
    obtain ⟨k1, hk1some, hk1spec⟩ := kBest_spec _ (h2len e1 he1lt)
    obtain ⟨k2, hk2some, hk2spec⟩ := kBest_spec _ (h2len e2 he2lt)
    refine ⟨e1, e2, k1, k2, he1lt, he2lt, hne12, ?_, ?_, ?_, hk1spec, hk2spec, ?_⟩
    · have htake : out.take 2 = [e1, e2] := by rw [houtc]; rfl
      have hps : parseStep weights i start =
          (out.take 2).map
            (fun j => (PRIMITIVES.getD ((kBest (W.getD j [])).getD 0) "", j)) := rfl
      rw [hps, htake]
      simp only [List.map_cons, List.map_nil]
      rw [hsl e1 he1lt, hsl e2 he2lt, hk1some, hk2some]
      rfl
    · exact edgeBefore_beats (hsort1 e2 (List.mem_cons_self _ _)) hne12
    · intro j hj hj1 hj2
      have hjmem : j ∈ out := hmem j hj
      rw [houtc] at hjmem
      have hjrest : j ∈ rest := by
        rcases List.mem_cons.mp hjmem with h | h
        · exact absurd h hj1
        · rcases List.mem_cons.mp h with h' | h'
          · exact absurd h' hj2
          · exact h'
      exact ⟨edgeBefore_beats (hsort1 j (List.mem_cons_of_mem _ hjrest)) (Ne.symm hj1),
        edgeBefore_beats (hsort2 j hjrest) (Ne.symm hj2)⟩
    · intro j hj
      exact ⟨hsl j hj, maxExclNone_spec (weights.getD (start + j) []) (h2len j hj)⟩

/-- A concrete two-row weight table for one intermediate node. -/
def tableC1 : Table :=
  [[9, 5, 1, 2, 3, 4, 0, 1],
   [0, 1, 6, 2, 3, 4, 5, 0]]

theorem genotype_parse_spec_witness :
    (1 ≤ 1 ∧ tableC1.length = alphasRowCount 1 ∧
      ∀ r ∈ tableC1, r.length = PRIMITIVES.length) ∧
    parseGeneProp 1 tableC1 :=
  ⟨⟨by decide, by decide, by decide⟩,
    genotype_parse_spec 1 tableC1 (by decide) (by decide) (by decide)⟩

/-- Embeds the inner sum of Cell.forward:
s = sum(self._ops[offset + j](h, weights[offset + j]) for j, h in enumerate(states)).
app k h wk stands for self._ops[k](h, wk) — the MixedOp instances and the
softmaxed weight rows are external tensors, abstracted as a function of the
edge index — and w k stands for weights[k]. -/
def cellSum {T : Type} [AddCommMonoid T] {α : Type}
    (app : ℕ → T → α → T) (w : ℕ → α) (offset : ℕ) (states : List T) : T :=
  (states.enum.map (fun p => app (offset + p.1) p.2 (w (offset + p.1)))).sum

/-- Embeds the loop of Cell.forward: states = [s0, s1]; offset = 0; for i in
range(steps): append the edge sum, offset += len(states).  Returns the final
states list and offset. -/
def cellLoop {T : Type} [AddCommMonoid T] {α : Type}
    (app : ℕ → T → α → T) (w : ℕ → α) (s0 s1 : T) : ℕ → List T × ℕ
  | 0 => ([s0, s1], 0)
  | i + 1 =>
    let p := cellLoop app w s0 s1 i
    (p.1 ++ [cellSum app w p.2 p.1], p.2 + p.1.length)

/-- Python l[-m:] on a list. -/
def pythonTail {T : Type} (l : List T) (m : ℕ) : List T :=
  if m = 0 then l else l.drop (l.length - m)

/-- Embeds Cell.forward's return torch.cat(states[-self._multiplier:], dim=1):
channel-wise concatenation is the external engine's job, so the result is the
list of concatenated parts in order. -/
def cellForward {T : Type} [AddCommMonoid T] {α : Type}
    (app : ℕ → T → α → T) (w : ℕ → α) (s0 s1 : T) (steps multiplier : ℕ) : List T :=
  pythonTail ((cellLoop app w s0 s1 steps).1) multiplier

theorem cellLoop_length {T : Type} [AddCommMonoid T] {α : Type}
    (app : ℕ → T → α → T) (w : ℕ → α) (s0 s1 : T) (i : ℕ) :
    ((cellLoop app w s0 s1 i).1).length = i + 2 := by
  induction i with
  | zero => rfl
  | succ i ih =>
    show ((cellLoop app w s0 s1 i).1 ++ _).length = i + 1 + 2
    rw [List.length_append, ih]
    rfl

theorem cellLoop_offset {T : Type} [AddCommMonoid T] {α : Type}
    (app : ℕ → T → α → T) (w : ℕ → α) (s0 s1 : T) (i : ℕ) :
    (cellLoop app w s0 s1 i).2 = nodeStart i := by
  induction i with
  | zero => rfl
  | succ i ih =>
    show (cellLoop app w s0 s1 i).2 + ((cellLoop app w s0 s1 i).1).length = nodeStart (i + 1)
    rw [ih, cellLoop_length, nodeStart_succ]

theorem cellLoop_take {T : Type} [AddCommMonoid T] {α : Type}
    (app : ℕ → T → α → T) (w : ℕ → α) (s0 s1 : T) {i k : ℕ} (h : i ≤ k) :
    ((cellLoop app w s0 s1 k).1).take (i + 2) = (cellLoop app w s0 s1 i).1 := by
  induction k with
  | zero =>
    have : i = 0 := by omega
    subst this
    rfl
  | succ k ih =>
    rcases Nat.lt_or_ge i (k + 1) with hlt | hge
    · show ((cellLoop app w s0 s1 k).1 ++ _).take (i + 2) = _
      rw [List.take_append_eq_append_take]
      have h1 : i + 2 ≤ ((cellLoop app w s0 s1 k).1).length := by
        rw [cellLoop_length]
        omega
      rw [Nat.sub_eq_zero_of_le h1, List.take_zero, List.append_nil]
      exact ih (by omega)
    · have : i = k + 1 := by omega
      subst this
      rw [← cellLoop_length app w s0 s1 (k + 1), List.take_length]

theorem enumFrom_map_eq_range {T β : Type} (f : ℕ → T → β) (l : List T) (d : T) (k : ℕ) :
    (List.enumFrom k l).map (fun p => f p.1 p.2)
      = (List.range l.length).map (fun h => f (k + h) (l.getD h d)) := by
  induction l generalizing k with
  | nil => rfl
  | cons a l ih =>
    show f k a :: (List.enumFrom (k + 1) l).map (fun p => f p.1 p.2) = _
    rw [List.length_cons, List.range_succ_eq_map, List.map_cons, List.map_map]
    congr 1
    rw [ih (k + 1)]
    apply List.map_congr_left
    intro h _
    have hkk : k + 1 + h = k + (h + 1) := by omega
    rw [hkk]
    rfl

theorem cellSum_eq_range {T : Type} [AddCommMonoid T] {α : Type}
    (app : ℕ → T → α → T) (w : ℕ → α) (offset : ℕ) (states : List T) (d : T) :
    cellSum app w offset states
      = ((List.range states.length).map
          (fun h => app (offset + h) (states.getD h d) (w (offset + h)))).sum := by
  unfold cellSum
  rw [show states.enum = List.enumFrom 0 states from rfl]
  rw [enumFrom_map_eq_range (fun idx h => app (offset + idx) h (w (offset + idx))) states d 0]
  simp

/-- The conclusion of claim C2: after the loop the states list holds the two
preprocessed inputs followed by one state per intermediate node; state i + 2
is the sum over its i + 2 prior states h of the mixed operation at edge
nodeStart i + h applied to state h with weight row nodeStart i + h (nodeStart
i being the running offset, the total number of edges consumed by earlier
nodes); the final offset is the total edge count; and the output is the list
of the last multiplier states in node order. -/
def cellForwardProp {T : Type} [AddCommMonoid T] {α : Type}
    (app : ℕ → T → α → T) (w : ℕ → α) (s0 s1 : T) (steps multiplier : ℕ) : Prop :=
  ((cellLoop app w s0 s1 steps).1).length = steps + 2 ∧
  ((cellLoop app w s0 s1 steps).1).getD 0 s0 = s0 ∧
  ((cellLoop app w s0 s1 steps).1).getD 1 s0 = s1 ∧
  (cellLoop app w s0 s1 steps).2 = nodeStart steps ∧
  (∀ i, i < steps →
    ((cellLoop app w s0 s1 steps).1).getD (i + 2) s0
      = ((List.range (i + 2)).map
          (fun h => app (nodeStart i + h)
            (((cellLoop app w s0 s1 steps).1).getD h s0)
            (w (nodeStart i + h)))).sum) ∧
  cellForward app w s0 s1 steps multiplier
    = ((cellLoop app w s0 s1 steps).1).drop (steps + 2 - multiplier)

/-- Claim C2: for every steps >= 1 and 1 <= multiplier <= steps + 2,
Cell.forward computes the state of intermediate node i as the sum over all
i + 2 prior states h of the mixed operation with weight row offset + h,
offset being the running total of edges consumed by earlier nodes, and
returns the channel-wise concatenation of the last multiplier entries of the
states list in node order. -/
theorem cell_forward_spec {T : Type} [AddCommMonoid T] {α : Type}
    (app : ℕ → T → α → T) (w : ℕ → α) (s0 s1 : T) (steps multiplier : ℕ)
    (hm1 : 1 ≤ multiplier) (hm2 : multiplier ≤ steps + 2) :
    cellForwardProp app w s0 s1 steps multiplier := by
  have hlen := cellLoop_length app w s0 s1 steps
  refine ⟨hlen, ?_, ?_, cellLoop_offset app w s0 s1 steps, ?_, ?_⟩
  · have h0 := cellLoop_take app w s0 s1 (Nat.zero_le steps)
    have : ((cellLoop app w s0 s1 steps).1).getD 0 s0
        = (((cellLoop app w s0 s1 steps).1).take 2).getD 0 s0 := by
      have h2 : (0 : ℕ) < (((cellLoop app w s0 s1 steps).1).take 2).length := by
        rw [List.length_take, hlen]
        omega
      have h2' : (0 : ℕ) < ((cellLoop app w s0 s1 steps).1).length := by omega
      rw [List.getD_eq_getElem _ _ h2, List.getD_eq_getElem _ _ h2', List.getElem_take]
    rw [this, h0]
    rfl
  · have h0 := cellLoop_take app w s0 s1 (Nat.zero_le steps)
    have : ((cellLoop app w s0 s1 steps).1).getD 1 s0
        = (((cellLoop app w s0 s1 steps).1).take 2).getD 1 s0 := by
      have h2 : (1 : ℕ) < (((cellLoop app w s0 s1 steps).1).take 2).length := by
        rw [List.length_take, hlen]
        omega
      have h2' : (1 : ℕ) < ((cellLoop app w s0 s1 steps).1).length := by omega
      rw [List.getD_eq_getElem _ _ h2, List.getD_eq_getElem _ _ h2', List.getElem_take]
    rw [this, h0]
    rfl
  · intro i hi
    have hpre : ((cellLoop app w s0 s1 steps).1).take (i + 1 + 2)
        = (cellLoop app w s0 s1 (i + 1)).1 := cellLoop_take app w s0 s1 hi
    have hprei : ((cellLoop app w s0 s1 steps).1).take (i + 2)
        = (cellLoop app w s0 s1 i).1 := cellLoop_take app w s0 s1 (by omega)
    have hstep : (cellLoop app w s0 s1 (i + 1)).1
        = (cellLoop app w s0 s1 i).1
          ++ [cellSum app w (cellLoop app w s0 s1 i).2 (cellLoop app w s0 s1 i).1] := rfl
    have hidx : ((cellLoop app w s0 s1 steps).1).getD (i + 2) s0
        = cellSum app w (cellLoop app w s0 s1 i).2 (cellLoop app w s0 s1 i).1 := by
      have hi2 : i + 2 < ((cellLoop app w s0 s1 steps).1).length := by
        rw [hlen]
        omega
      have hi2' : i + 2 < (((cellLoop app w s0 s1 steps).1).take (i + 1 + 2)).length := by
        rw [List.length_take, hlen]
        have : i + 1 + 2 ≤ steps + 2 := by omega
        omega
      rw [List.getD_eq_getElem _ _ hi2]
      have : ((cellLoop app w s0 s1 steps).1)[i + 2]
          = (((cellLoop app w s0 s1 steps).1).take (i + 1 + 2))[i + 2] := by
        rw [List.getElem_take]
      rw [this]
      rw [← List.getD_eq_getElem _ s0 hi2']
      rw [hpre, hstep]
      rw [List.getD_append_right _ _ _ _ (by rw [cellLoop_length])]
      simp [cellLoop_length]
    rw [hidx, cellLoop_offset]
    rw [cellSum_eq_range app w (nodeStart i) (cellLoop app w s0 s1 i).1 s0]
    rw [cellLoop_length]
    refine congrArg List.sum (List.map_congr_left ?_)
    intro h hh
    rw [List.mem_range] at hh
    congr 1
    rw [← hprei]
    have h1 : h < (((cellLoop app w s0 s1 steps).1).take (i + 2)).length := by
      rw [hprei, cellLoop_length]
      omega
    have h2 : h < ((cellLoop app w s0 s1 steps).1).length := by
      rw [hlen]
      omega
    rw [List.getD_eq_getElem _ _ h1, List.getD_eq_getElem _ _ h2, List.getElem_take]
  · unfold cellForward pythonTail
    rw [if_neg (by omega), hlen]

theorem cell_forward_spec_witness :
    (1 ≤ 2 ∧ 2 ≤ 1 + 2) ∧
    cellForwardProp (fun (k : ℕ) (h wk : ℚ) => h + wk + k)
      (fun k : ℕ => (k : ℚ)) 0 1 1 2 :=
  ⟨⟨by decide, by decide⟩,
    cell_forward_spec (fun (k : ℕ) (h wk : ℚ) => h + wk + k)
      (fun k : ℕ => (k : ℚ)) 0 1 1 2 (by decide) (by decide)⟩

/-- First-occurrence argmax over a prefix of a row, as a linear scan. -/
def argmaxAux (row : List ℚ) (m : ℕ) : ℕ :=
  (List.range m).foldl (fun b k => if row.getD b 0 < row.getD k 0 then k else b) 0

/-- Embeds weight.argmax() of InnerCell.__init__ over the ENTIRE row, the
"none" entry included.  torch returns the index of the first maximal value;
the linear scan keeps the current best and replaces it only on a strictly
larger value, which yields exactly that index. -/
def argmaxFull (row : List ℚ) : ℕ := argmaxAux row row.length

theorem argmaxAux_spec (row : List ℚ) (m : ℕ) (hm : 1 ≤ m) :
    argmaxAux row m < m ∧
    (∀ k, k < m → row.getD k 0 ≤ row.getD (argmaxAux row m) 0) ∧
    (∀ k, k < argmaxAux row m → row.getD k 0 < row.getD (argmaxAux row m) 0) := by
  induction m with
  | zero => omega
  | succ m ih =>
    rcases Nat.eq_zero_or_pos m with hm0 | hm1
    · subst hm0
      have hb : argmaxAux row 1 = 0 := by
        unfold argmaxAux
        rw [show List.range 1 = [0] from rfl]
        simp only [List.foldl_cons, List.foldl_nil]
        rw [if_neg (lt_irrefl _)]
      refine ⟨by rw [hb]; omega, ?_, ?_⟩
      · intro k hk
        have hk0 : k = 0 := by omega
        rw [hk0, hb]
      · intro k hk
        rw [hb] at hk
        omega
    · obtain ⟨h1, h2, h3⟩ := ih hm1
      have hstep : argmaxAux row (m + 1) =
          if row.getD (argmaxAux row m) 0 < row.getD m 0 then m else argmaxAux row m := by
        unfold argmaxAux
        rw [List.range_succ, List.foldl_append]
        rfl
      by_cases hcmp : row.getD (argmaxAux row m) 0 < row.getD m 0
      · rw [hstep, if_pos hcmp]
        refine ⟨by omega, ?_, ?_⟩
        · intro k hk
          rcases Nat.lt_or_ge k m with hlt | hge
          · exact le_of_lt (lt_of_le_of_lt (h2 k hlt) hcmp)
          · have : k = m := by omega
            rw [this]
        · intro k hk
          exact lt_of_le_of_lt (h2 k hk) hcmp
      · rw [hstep, if_neg hcmp]
        refine ⟨by omega, ?_, h3⟩
        intro k hk
        rcases Nat.lt_or_ge k m with hlt | hge
        · exact h2 k hlt
        · have : k = m := by omega
          rw [this]
          exact le_of_not_lt hcmp

theorem argmaxFull_spec (row : List ℚ) (h : 1 ≤ row.length) :
    argmaxFull row < row.length ∧
    (∀ k, k < row.length → row.getD k 0 ≤ row.getD (argmaxFull row) 0) ∧
    (∀ k, k < argmaxFull row → row.getD k 0 < row.getD (argmaxFull row) 0) :=
  argmaxAux_spec row row.length h

/-- Embeds choice = keys[weight.argmax()] of InnerCell.__init__, with keys =
list(OPS.keys()).  The OPS registry lives in darts/operations.py, outside the
file under verification, so its key enumeration stays an explicit parameter
(the spec's OperationRegistry only fixes that it is an ordered enumeration of
operation names). -/
def innerCellChoice (keys : List String) (row : List ℚ) : String :=
  keys.getD (argmaxFull row) ""

/-- Embeds the op list built by InnerCell.__init__: one instantiated
operation per edge — the operation named keys[weights.data[offset + j].argmax()]
with the same stride rule as Cell, and no MixedOp wrapper (the pair records
the chosen name and the stride the single op was constructed with). -/
def innerCellOps (keys : List String) (weights : Table) (reduction : Bool) (steps : ℕ) :
    List (String × ℕ) :=
  (cellEdges steps).map (fun e =>
    (innerCellChoice keys (weights.getD (nodeStart e.1 + e.2) []),
     edgeStride reduction e.2))

theorem innerCellOps_getD (keys : List String) (weights : Table) (reduction : Bool)
    {steps i j : ℕ} (hi : i < steps) (hj : j < 2 + i) :
    (innerCellOps keys weights reduction steps).getD (nodeStart i + j) ("", 0)
      = (innerCellChoice keys (weights.getD (nodeStart i + j) []),
         edgeStride reduction j) := by
  unfold innerCellOps
  have hlen : nodeStart i + j < (cellEdges steps).length := by
    rw [cellEdges_length]
    have h1 : nodeStart i + (i + 2) ≤ nodeStart steps := by
      rw [← nodeStart_succ]
      exact nodeStart_mono hi
    omega
  have hlen' : nodeStart i + j < ((cellEdges steps).map (fun e =>
      (innerCellChoice keys (weights.getD (nodeStart e.1 + e.2) []),
       edgeStride reduction e.2))).length := by
    simpa using hlen
  rw [List.getD_eq_getElem _ _ hlen', List.getElem_map]
  have := cellEdges_getD hi hj
  rw [List.getD_eq_getElem _ _ hlen] at this
  rw [this]

/-- The conclusion of claim C8: the size-estimation cell holds exactly one
concrete operation per edge (one entry per edge, no mixture), and each edge's
operation is the primitive at the first-encountered maximal weight of that
edge's row, with the Cell stride rule. -/
def innerCellProp (weights : Table) (reduction : Bool) (steps : ℕ) : Prop :=
  (innerCellOps PRIMITIVES weights reduction steps).length = alphasRowCount steps ∧
  ∀ i, i < steps → ∀ j, j < i + 2 →
    ∃ k, k < (weights.getD (nodeStart i + j) []).length ∧
      (innerCellOps PRIMITIVES weights reduction steps).getD (nodeStart i + j) ("", 0)
        = (PRIMITIVES.getD k "", edgeStride reduction j) ∧
      (∀ k', k' < (weights.getD (nodeStart i + j) []).length →
        (weights.getD (nodeStart i + j) []).getD k' 0
          ≤ (weights.getD (nodeStart i + j) []).getD k 0) ∧
      (∀ k', k' < k →
        (weights.getD (nodeStart i + j) []).getD k' 0
          < (weights.getD (nodeStart i + j) []).getD k 0)

/-- Claim C8: for every edge of every cell built by the SizeEstimator,
exactly one concrete operation is instantiated (no MixedOperation wrapper and
no per-branch summation), and the instantiated operation is the one whose
weight in that edge's weight row is highest, ties resolved in favor of the
first-encountered maximum during a linear scan.  (The registry key order is
modelled from the spec as the PrimitiveSet enumeration.) -/
theorem inner_cell_single_op (steps : ℕ) (reduction : Bool) (weights : Table)
    (hrows : weights.length = alphasRowCount steps)
    (hrow : ∀ r ∈ weights, r.length = PRIMITIVES.length) :
    innerCellProp weights reduction steps := by
  constructor
  · unfold innerCellOps
    rw [List.length_map, cellEdges_length, alphasRowCount_eq_nodeStart]
  · intro i hi j hj
    have hj' : j < 2 + i := by omega
    have hidx : nodeStart i + j < weights.length := by
      rw [hrows, alphasRowCount_eq_nodeStart]
      have h1 : nodeStart i + (i + 2) ≤ nodeStart steps := by
        rw [← nodeStart_succ]
        exact nodeStart_mono hi
      omega
    have hrl : (weights.getD (nodeStart i + j) []).length = 8 := by
      rw [List.getD_eq_getElem _ _ hidx]
      exact (hrow _ (List.getElem_mem hidx)).trans PRIMITIVES_length
    obtain ⟨h1, h2, h3⟩ := argmaxAux_spec (weights.getD (nodeStart i + j) [])
      (weights.getD (nodeStart i + j) []).length (by rw [hrl]; omega)
    refine ⟨argmaxFull (weights.getD (nodeStart i + j) []), h1, ?_, h2, h3⟩
    rw [innerCellOps_getD PRIMITIVES weights reduction hi hj']
    rfl

/-- A concrete two-row weight table for the SizeEstimator cell. -/
def tableC8 : Table :=
  [[1, 5, 1, 2, 3, 4, 0, 1],
   [7, 1, 6, 2, 3, 4, 5, 0]]

theorem inner_cell_single_op_witness :
    (tableC8.length = alphasRowCount 1 ∧
      ∀ r ∈ tableC8, r.length = PRIMITIVES.length) ∧
    innerCellProp tableC8 false 1 :=
  ⟨⟨by decide, by decide⟩,
    inner_cell_single_op 1 false tableC8 (by decide) (by decide)⟩

theorem oneHot_getD (n k j : ℕ) (hj : j < n) :
    (oneHot n k).getD j 0 = if j = k then (1 : ℚ) else 0 := by
  unfold oneHot
  have hj' : j < ((List.range n).map (fun j => if j = k then (1 : ℚ) else 0)).length := by
    simpa using hj
  rw [List.getD_eq_getElem _ _ hj', List.getElem_map]
  simp

/-- The conclusion of claim C10 for a registry key list and a weight row: the
chosen name is keys[k] for the first-encountered maximum k over the ENTIRE
row (the "none" entry included); when the "none" entry is a maximum of the
row the chosen name is keys[noneIdx] (the zero operation when the key list
starts with "none"); and the chosen name agrees with the highest-weight
primitive for every row exactly when the key enumeration agrees with
PRIMITIVES on all primitive positions. -/
def opsKeysProp (keys : List String) (row : List ℚ) : Prop :=
  (∃ k, k < row.length ∧ innerCellChoice keys row = keys.getD k "" ∧
    (∀ k', k' < row.length → row.getD k' 0 ≤ row.getD k 0) ∧
    (∀ k', k' < k → row.getD k' 0 < row.getD k 0)) ∧
  ((∀ k', k' < row.length → row.getD k' 0 ≤ row.getD noneIdx 0) →
    innerCellChoice keys row = keys.getD noneIdx "") ∧
  ((∀ r : List ℚ, r.length = PRIMITIVES.length →
      innerCellChoice keys r = PRIMITIVES.getD (argmaxFull r) "") ↔
    (∀ i, i < PRIMITIVES.length → keys.getD i "" = PRIMITIVES.getD i ""))

/-- Claim C10: in SizeEstimator cell construction the chosen primitive name
is list(OPS.keys())[argmax(edge weight row)] with the argmax ranging over the
entire row including the "none" entry — so a maximal "none" weight selects
the zero operation, unlike genotype extraction — and the chosen operation
coincides with the highest-weight primitive of the row exactly when the OPS
key iteration order equals the PRIMITIVES order indexing the weight rows. -/
theorem inner_cell_keys_spec (keys : List String) (row : List ℚ)
    (hlen : row.length = PRIMITIVES.length) :
    opsKeysProp keys row := by
  have hlen8 : row.length = 8 := hlen.trans PRIMITIVES_length
  obtain ⟨h1, h2, h3⟩ := argmaxFull_spec row (by omega)
  refine ⟨⟨argmaxFull row, h1, rfl, h2, h3⟩, ?_, ?_, ?_⟩
  · intro hnone
    have hz : argmaxFull row = 0 := by
      by_contra hk
      have h0lt : 0 < argmaxFull row := by omega
      have := h3 0 h0lt
      have hle := hnone (argmaxFull row) h1
      rw [noneIdx_eq_zero] at hle
      exact absurd (lt_of_le_of_lt hle this) (lt_irrefl _)
    unfold innerCellChoice
    rw [hz, noneIdx_eq_zero]
  · intro hcoin i hi
    have hi8 : i < 8 := PRIMITIVES_length ▸ hi
    have hlen1 : (oneHot PRIMITIVES.length i).length = 8 := by
      unfold oneHot
      rw [List.length_map, List.length_range, PRIMITIVES_length]
    have hone := hcoin (oneHot PRIMITIVES.length i)
      (by rw [hlen1, PRIMITIVES_length])
    have hargmax : argmaxFull (oneHot PRIMITIVES.length i) = i := by
      obtain ⟨g1, g2, g3⟩ := argmaxFull_spec (oneHot PRIMITIVES.length i)
        (by rw [hlen1]; omega)
      by_contra hbi
      have h8 : argmaxFull (oneHot PRIMITIVES.length i) < 8 := hlen1 ▸ g1
      have hblt : argmaxFull (oneHot PRIMITIVES.length i) < PRIMITIVES.length :=
        lt_of_lt_of_le h8 PRIMITIVES_length.symm.le
      have hvi : (oneHot PRIMITIVES.length i).getD i 0 = 1 := by
        rw [oneHot_getD _ _ _ hi]
        simp
      have hvb : (oneHot PRIMITIVES.length i).getD
          (argmaxFull (oneHot PRIMITIVES.length i)) 0 = 0 := by
        rw [oneHot_getD _ _ _ hblt]
        simp [hbi]
      have hcon := g2 i (by rw [hlen1]; omega)
      rw [hvi, hvb] at hcon
      norm_num at hcon
    rw [hargmax] at hone
    unfold innerCellChoice at hone
    rw [hargmax] at hone
    exact hone
  · intro hagree r hr
    have hr8 : r.length = 8 := hr.trans PRIMITIVES_length
    obtain ⟨g1, _, _⟩ := argmaxFull_spec r (by omega)
    unfold innerCellChoice
    exact hagree (argmaxFull r) (by rw [← hr]; exact g1)

/-- A sample registry key enumeration that differs from PRIMITIVES at
indices 1 and 2 and carries extra keys, for exercising the key-order
theorem on a concrete instance. -/
def opsKeysUpstream : List String :=
  ["none", "avg_pool_3x3", "max_pool_3x3", "skip_connect",
   "sep_conv_3x3", "sep_conv_5x5", "sep_conv_7x7",
   "dil_conv_3x3", "dil_conv_5x5", "conv_7x1_1x7"]

theorem inner_cell_keys_spec_witness :
    (([(3 : ℚ), 9, 1, 2, 3, 4, 0, 1] : List ℚ).length = PRIMITIVES.length) ∧
    opsKeysProp opsKeysUpstream [(3 : ℚ), 9, 1, 2, 3, 4, 0, 1] :=
  ⟨by decide,
    inner_cell_keys_spec opsKeysUpstream [(3 : ℚ), 9, 1, 2, 3, 4, 0, 1] (by decide)⟩

/-- Embeds InnerCell.__init__ as a store computation: it receives a reference
to a live weight table, reads weights.data[offset + j] for every edge to pick
the single operation, and performs no write — the store comes back exactly as
it went in. -/
def innerCellInit (store : Store) (keys : List String) (wref : ℕ)
    (reduction : Bool) (steps : ℕ) : (List (String × ℕ)) × Store :=
  (innerCellOps keys (readTable store wref) reduction steps, store)

/-- Embeds the argument list of the ModelForModelSizeMeasure construction in
Network.get_current_model_size: the two table arguments passed are
self.alphas_normal and self.alphas_reduce themselves — the live references,
not copies. -/
def getCurrentModelSizeArgs (net : NetworkState) : ℕ × ℕ :=
  (net.alphas_normal, net.alphas_reduce)

/-- One layer of the cell loop of ModelForModelSizeMeasure.__init__: a
reduction InnerCell reading the reduce table at positions layers//3 and
2*layers//3, a normal InnerCell reading the normal table elsewhere. -/
def sizeMeasureStep (keys : List String) (layers steps aN aR : ℕ)
    (acc : (List (List (String × ℕ))) × Store) (i : ℕ) :
    (List (List (String × ℕ))) × Store :=
  if i = layers / 3 ∨ i = 2 * layers / 3 then
    ((acc.1 ++ [(innerCellInit acc.2 keys aR true steps).1]),
      (innerCellInit acc.2 keys aR true steps).2)
  else
    ((acc.1 ++ [(innerCellInit acc.2 keys aN false steps).1]),
      (innerCellInit acc.2 keys aN false steps).2)

/-- Embeds ModelForModelSizeMeasure.__init__ (the cell-choice structure
threaded through the store): the per-layer InnerCells and the store after
construction. -/
def modelForModelSizeMeasure (store : Store) (keys : List String)
    (layers steps aN aR : ℕ) : (List (List (String × ℕ))) × Store :=
  (List.range layers).foldl (sizeMeasureStep keys layers steps aN aR) ([], store)

/-- Embeds Network.get_current_model_size: builds the throwaway measuring
model from the live store, passing the live table references (the parameter
count itself is computed by the external count_parameters_in_MB and carries
no verified structure). -/
def getCurrentModelSize (store : Store) (keys : List String) (net : NetworkState) :
    (List (List (String × ℕ))) × Store :=
  modelForModelSizeMeasure store keys net.layers net.steps
    (getCurrentModelSizeArgs net).1 (getCurrentModelSizeArgs net).2

theorem sizeMeasureStep_store (keys : List String) (layers steps aN aR : ℕ)
    (acc : (List (List (String × ℕ))) × Store) (i : ℕ) :
    (sizeMeasureStep keys layers steps aN aR acc i).2 = acc.2 := by
  unfold sizeMeasureStep
  split <;> rfl

theorem sizeMeasure_foldl_store (keys : List String) (layers steps aN aR : ℕ)
    (l : List ℕ) (acc : (List (List (String × ℕ))) × Store) :
    (l.foldl (sizeMeasureStep keys layers steps aN aR) acc).2 = acc.2 := by
  induction l generalizing acc with
  | nil => rfl
  | cons a l ih =>
    rw [List.foldl_cons, ih, sizeMeasureStep_store]

/-- The conclusion of claim C9 (amended form): the call leaves the store, and
in particular both live weight tables, value-for-value unchanged, and the
table arguments it hands to the measuring model are the live references
themselves. -/
def modelSizeFrameProp (store : Store) (keys : List String) (net : NetworkState) : Prop :=
  (getCurrentModelSize store keys net).2 = store ∧
  readTable (getCurrentModelSize store keys net).2 net.alphas_normal
    = readTable store net.alphas_normal ∧
  readTable (getCurrentModelSize store keys net).2 net.alphas_reduce
    = readTable store net.alphas_reduce ∧
  getCurrentModelSizeArgs net = (net.alphas_normal, net.alphas_reduce)

/-- Claim C9 amended: get_current_model_size leaves the live
architecture-weight tables unchanged (construction of the measuring model
only reads them), but it does so by passing the live tensors to the measuring
model by reference — no copy-by-value snapshot is taken. -/
theorem model_size_frame (store : Store) (keys : List String) (net : NetworkState) :
    modelSizeFrameProp store keys net := by
  have hstore : (getCurrentModelSize store keys net).2 = store :=
    sizeMeasure_foldl_store _ _ _ _ _ _ _
  exact ⟨hstore, by rw [hstore], by rw [hstore], rfl⟩

/-- A concrete live network for the sharing counterexample. -/
def netC9 : NetworkState × Store := networkInit [] 8 10 8 4 4 3 zeroVals zeroVals

/-- Claim C9 counterexample: the claim says the size-measurement model takes
a copy-by-value snapshot rather than sharing the live tensors; in fact the
references handed to ModelForModelSizeMeasure are exactly the live
alphas_normal and alphas_reduce references of the network (here 0 and 1), so
the live tensors are shared, not copied. -/
theorem size_measure_shares_counterexample :
    (getCurrentModelSizeArgs netC9.1).1 = netC9.1.alphas_normal ∧
    (getCurrentModelSizeArgs netC9.1).2 = netC9.1.alphas_reduce ∧
    netC9.1.alphas_normal = 0 ∧ netC9.1.alphas_reduce = 1 ∧
    ¬((getCurrentModelSizeArgs netC9.1).1 ≠ netC9.1.alphas_normal ∧
      (getCurrentModelSizeArgs netC9.1).2 ≠ netC9.1.alphas_reduce) :=
  ⟨rfl, rfl, rfl, rfl, fun h => h.1 rfl⟩

end DartsModelSearch
